import Mathlib

/-!
Verification development for the `LocalizationService` of the
angular2localization repository (file `angular2localization/src/services/
localization.service.ts`, bundled in the repository as well).

The service is shallowly embedded: JavaScript objects holding translation
data are modelled as association lists (JS objects never carry duplicate
keys), the per-language translation table as a partial map from language
tag to such an object, and the asynchronous provider life cycle as a
transition system folded over lists of observable events.  `Option` is
used where the source can throw or diverge (`none` = no value is ever
returned).
-/

set_option autoImplicit false

namespace Angular2Localization

/-- Translation value: a JSON-like value that is either a string or a
nested mapping, exactly the shape of the payloads `addData` merges. -/
inductive TransValue where
  | str (s : String)
  | node (fields : List (String × TransValue))

/-- A JS object holding translation data: field name to value. -/
abbrev Obj := List (String × TransValue)

/-- Property read `obj[key]` on a translation object (`undefined` = `none`). -/
def getField : Obj → String → Option TransValue
  | [], _ => none
  | (k, v) :: rest, key => if k = key then some v else getField rest key

/-- Property write `obj[key] = v`: overwrites the binding if the key is
present, appends it otherwise (JS objects keep one binding per key). -/
def objSet : Obj → String → TransValue → Obj
  | [], key, v => [(key, v)]
  | (k, w) :: rest, key, v =>
      if k = key then (key, v) :: rest else (k, w) :: objSet rest key v

/-- Value of the LAST binding of a key in an association list; used to
state what the copy loop of `extend` produces. -/
def getLastField : Obj → String → Option TransValue
  | [], _ => none
  | (k, v) :: rest, key =>
      match getLastField rest key with
      | some r => some r
      | none => if k = key then some v else none

/-- First-some choice on options (JS `a !== undefined ? a : b` pattern). -/
def oOr (a b : Option TransValue) : Option TransValue :=
  match a with
  | some v => some v
  | none => b

/-- Embedding of the source's `extend(...args)`: starts from an empty
object and copies every field of every argument object in order, so later
arguments overwrite same-named fields of earlier ones. -/
def extend (args : List Obj) : Obj :=
  args.foldl (fun newObj obj => obj.foldl (fun acc kv => objSet acc kv.1 kv.2) newObj) []

/-! ### String splitting (`key.split(this.keySeparator)`) -/

/-- Fuel-driven splitting of a character list on a non-empty separator,
scanning left to right; the fuel is an upper bound on the input length, so
the zero-fuel branch is never reached on the intended calls. -/
def splitLoop (sep : List Char) : Nat → List Char → List Char → List (List Char)
  | _, [], cur => [cur]
  | 0, _ :: _, cur => [cur]
  | Nat.succ n, c :: cs, cur =>
      if List.isPrefixOf sep (c :: cs) then
        cur :: splitLoop sep n (List.drop sep.length (c :: cs)) []
      else splitLoop sep n cs (cur ++ [c])

/-- JS `String.prototype.split` with a string separator (the empty
separator splits into single characters, as in JS). -/
def jsSplit (s sep : String) : List String :=
  if sep.data = [] then s.data.map (fun c => String.mk [c])
  else (splitLoop sep.data s.data.length s.data []).map String.mk

/-! ### Template substitution (the regex replace of `translate`) -/

/-- JS regex whitespace class (ASCII part; the claims only exercise
ASCII placeholders). -/
def jsSpace (c : Char) : Bool :=
  c == ' ' || c == '\t' || c == '\n' || c == '\r' || c == '\x0b' || c == '\x0c'

/-- A character admissible inside a placeholder name: the regex class
excluding braces and whitespace. -/
def nameChar (c : Char) : Bool :=
  !(c == '\x7b' || c == '\x7d' || jsSpace c)

/-- Greedy run of name characters (the regex star over the name class). -/
def takeName : List Char → List Char × List Char
  | [] => ([], [])
  | c :: cs =>
      if nameChar c then
        let p := takeName cs
        (c :: p.1, p.2)
      else ([], c :: cs)

/-- Consumes at most one whitespace character (the optional whitespace of
the placeholder regex). -/
def spSplit (t : List Char) : List Char × List Char :=
  match t with
  | c :: cs => if jsSpace c then ([c], cs) else ([], t)
  | [] => ([], [])

/-- Completion of a placeholder match given the consumed optional space,
the greedy name run and the remaining input after the run: the remaining
input must consist of two closing braces, optionally preceded by one more
whitespace character. -/
def matchTailAux (sp1 nmRun rest2 : List Char) :
    Option (List Char × List Char × List Char) :=
  match rest2 with
  | '\x7d' :: '\x7d' :: r => some (nmRun, sp1 ++ nmRun ++ ['\x7d', '\x7d'], r)
  | c :: '\x7d' :: '\x7d' :: r =>
      if jsSpace c then some (nmRun, sp1 ++ nmRun ++ [c, '\x7d', '\x7d'], r) else none
  | _ => none

/-- Matches the placeholder body (after the two opening braces): one
optional space, a greedy run of name characters, one optional space, two
closing braces.  Returns the captured name, the full matched text after
the opening braces, and the remaining input. -/
def matchTailT (t : List Char) : Option (List Char × List Char × List Char) :=
  matchTailAux (spSplit t).1 (takeName (spSplit t).2).1 (takeName (spSplit t).2).2

/-- Attempts to match the whole placeholder pattern at the head of the
input; returns (captured name, matched text, rest). -/
def matchPlaceholder : List Char → Option (List Char × List Char × List Char)
  | c1 :: c2 :: t =>
      if c1 = '\x7b' ∧ c2 = '\x7b' then
        match matchTailT t with
        | some (nm, mt, r) => some (nm, '\x7b' :: '\x7b' :: mt, r)
        | none => none
      else none
  | _ => none

/-- Substitution arguments: the `args` object of `translate`, read only
through property lookups that yield strings. -/
abbrev Args := String → Option String

/-- Fuel-driven left-to-right non-overlapping global replace of the
placeholder pattern; on a match the callback substitutes `args[name]`
when that property is defined and keeps the matched text otherwise.  The
fuel is an upper bound on the input length (each step consumes at least
one character), so the zero-fuel branch is never reached. -/
def replTemGo (args : Args) : Nat → List Char → List Char
  | _, [] => []
  | 0, _ :: _ => []
  | Nat.succ n, c :: cs =>
      match matchPlaceholder (c :: cs) with
      | some (nm, mt, rest) =>
          (match args (String.mk nm) with
           | some v => v.data
           | none => mt) ++ replTemGo args n rest
      | none => c :: replTemGo args n cs

/-- Global template replace on a character list with canonical fuel. -/
def replTem (args : Args) (l : List Char) : List Char :=
  replTemGo args l.length l

/-- Embedding of `value.replace(/{{\s?([^{}\s]*)\s?}}/g, cb)`. -/
def applyTemplate (value : String) (args : Args) : String :=
  String.mk (replTem args value.data)

/-! ### Service state -/

/-- The service state enumeration of the source. -/
inductive ServiceState where
  | isReady
  | isLoading
  | isWaiting
deriving DecidableEq

/-- The loading mode enumeration of the source. -/
inductive LoadingMode where
  | Direct
  | Async
deriving DecidableEq

/-- A provider for the asynchronous loading (the source's field `prefix`
is renamed `pathPrefix`). -/
structure Provider where
  pathPrefix : String
  dataFormat : String
  webAPI : Bool

/-- The mutable state of a `LocalizationService` instance.  The fields
through `counter` are the source's fields (`translationData` is the JS
object `languageCode -> translation object`, modelled as a partial map);
`emitted` records the payloads sent on the `translationChanged` event
emitter and `errorLog` counts the `console.error` calls, so that the
notification and logging behaviour is observable in the model. -/
structure LocState where
  languageCode : String
  loadingMode : LoadingMode
  serviceState : ServiceState
  enableLocale : Bool
  providers : List Provider
  translationData : String → Option Obj
  missingValue : Option String
  missingKey : Option String
  composedKey : Bool
  keySeparator : String
  counter : Int
  emitted : List String
  errorLog : Nat

/-- The state built by the constructor. -/
def initState : LocState :=
  { languageCode := ""
    loadingMode := LoadingMode.Direct
    serviceState := ServiceState.isWaiting
    enableLocale := false
    providers := []
    translationData := fun _ => none
    missingValue := none
    missingKey := none
    composedKey := true
    keySeparator := "."
    counter := 0
    emitted := []
    errorLog := 0 }

/-! ### Key resolution and translate -/

/-- One step of the composed-key descent: replace the current object by
the value of the segment when that value is a non-null nested mapping,
keep it otherwise. -/
def descendStep (flds : Obj) (k : String) : Obj :=
  match getField flds k with
  | some (TransValue.node m) => m
  | _ => flds

/-- The do-while descent loop of `translate`: shifts segments one by one,
descending whenever the current segment's value is a mapping; returns the
object held at the end of the loop and the last segment shifted, which is
the key of the final lookup. -/
def descend (flds : Obj) (k : String) : List String → Obj × String
  | [] => (descendStep flds k, k)
  | k2 :: rest => descend (descendStep flds k) k2 rest

/-- Resolution of a key against the translation table: the raw looked-up
value (`none` when the language has no entry or the final lookup is
undefined) together with the final lookup key, which is the last composed
segment when composed keys are enabled and an entry exists.  (The empty
split result is unreachable for a non-empty separator.) -/
def resolveValue (st : LocState) (key lang : String) : Option TransValue × String :=
  match st.translationData lang with
  | none => (none, key)
  | some translation =>
      if st.composedKey then
        match jsSplit key st.keySeparator with
        | [] => (none, key)
        | k :: rest =>
            let d := descend translation k rest
            (getField d.1 d.2, d.2)
      else (getField translation key, key)

/-- Miss test of `translate`: `value == null || value == ""`. -/
def isMiss : Option TransValue → Bool
  | none => true
  | some (TransValue.str s) => s == ""
  | some (TransValue.node _) => false

/-- JS truthiness of the optional string configuration fields. -/
def truthyStr : Option String → Bool
  | none => false
  | some s => s != ""

/-- The hit branch of `translate`: with non-null args the placeholders of
a string value are substituted; a non-string value with non-null args
makes the source throw (`value.replace` is not a function), modelled as
`none`. -/
def hitProcess (v : Option TransValue) (args : Option Args) : Option TransValue :=
  match v, args with
  | some (TransValue.str s), some a => some (TransValue.str (applyTemplate s a))
  | some (TransValue.str s), none => some (TransValue.str s)
  | some (TransValue.node m), none => some (TransValue.node m)
  | some (TransValue.node _), some _ => none
  | none, _ => none

/-- Fuel-indexed body of `translate`.  The only recursive call of the
source passes the fixed key `this.missingKey`, so a run either returns
within two frames or repeats the very same call forever (a stack
overflow); exhausted fuel therefore models that divergence. -/
def translateF (st : LocState) (args : Option Args) (lang : String) :
    Nat → String → Option TransValue
  | 0, _ => none
  | Nat.succ n, key =>
      let r := resolveValue st key lang
      if isMiss r.1 then
        if truthyStr st.missingKey then translateF st args lang n (st.missingKey.getD "")
        else if truthyStr st.missingValue then some (TransValue.str (st.missingValue.getD ""))
        else some (TransValue.str r.2)
      else hitProcess r.1 args

/-- Embedding of `translate(key, args?, lang)`; `none` models a run that
never returns a value (exception or unbounded recursion). -/
def translate (st : LocState) (key : String) (args : Option Args) (lang : String) :
    Option TransValue :=
  translateF st args lang 2 key

/-! ### State-changing operations -/

/-- Embedding of the private `addData(data, language)`. -/
def addData (st : LocState) (data : Obj) (language : String) : LocState :=
  { st with translationData := fun l =>
      if l = language then
        some (match st.translationData language with
              | some old => extend [old, data]
              | none => data)
      else st.translationData l }

/-- Embedding of `addTranslation(language, translation)`. -/
def addTranslation (st : LocState) (language : String) (translation : Obj) : LocState :=
  addData st translation language

/-- Embedding of `addProvider(prefix, dataFormat, webAPI)`. -/
def addProvider (st : LocState) (pathPrefix dataFormat : String) (webAPI : Bool) : LocState :=
  let ps := st.providers ++ [⟨pathPrefix, dataFormat, webAPI⟩]
  { st with providers := ps
            loadingMode := if ps.length = 1 then LoadingMode.Async else st.loadingMode }

/-- Embedding of `translationProvider`, which forwards to `addProvider`. -/
def translationProvider (st : LocState) (pathPrefix dataFormat : String) (webAPI : Bool) :
    LocState :=
  addProvider st pathPrefix dataFormat webAPI

/-- Embedding of `setMissingValue(value)`. -/
def setMissingValue (st : LocState) (value : String) : LocState :=
  { st with missingValue := some value }

/-- Embedding of `setMissingKey(key)`. -/
def setMissingKey (st : LocState) (key : String) : LocState :=
  { st with missingKey := some key }

/-- Embedding of `setComposedKey(composedKey, keySeparator)`. -/
def setComposedKey (st : LocState) (composedKey : Bool) (keySeparator : String) : LocState :=
  { st with composedKey := composedKey, keySeparator := keySeparator }

/-- Embedding of `useLocaleAsLanguage()`. -/
def useLocaleAsLanguage (st : LocState) : LocState :=
  { st with enableLocale := true }

/-- Embedding of the private `translationComplete(language)`: sets the
state to ready, updates the language code, emits `translationChanged`. -/
def translationComplete (st : LocState) (language : String) : LocState :=
  { st with serviceState := ServiceState.isReady
            languageCode := language
            emitted := st.emitted ++ [language] }

/-- Synchronous state effect of the private `getTranslation(language)`:
the translation data is reset to a fresh empty object, the state becomes
loading and the pending counter is set to the number of providers.  The
dispatched HTTP requests report back through `handleEvent`. -/
def getTranslation (st : LocState) (language : String) : LocState :=
  { st with translationData := fun _ => none
            serviceState := ServiceState.isLoading
            counter := (st.providers.length : Int) }

/-- The URL built for one provider (file-based vs Web-API providers). -/
def providerURL (p : Provider) (language : String) : String :=
  if p.webAPI then p.pathPrefix ++ language
  else p.pathPrefix ++ language ++ "." ++ p.dataFormat

/-- Embedding of `updateTranslation(language)`; the default language
argument is computed from the injected locale service, which is external,
so the resolved language is a parameter here. -/
def updateTranslation (st : LocState) (language : String) : LocState :=
  if language ≠ "" ∧ language ≠ st.languageCode then
    if st.loadingMode = LoadingMode.Async then getTranslation st language
    else translationComplete st language
  else st

/-! ### Provider observable events

Each provider fetch is an Angular Http observable subscribed with three
callbacks.  Per the observable contract, a successful fetch delivers
`next`(parsed body) and then `complete`; a failed fetch delivers `error`
only — `complete` is not invoked after an error. -/

/-- One observable callback invocation of a provider fetch. -/
inductive ProviderEvent where
  | next (payload : Obj)
  | error
  | complete

/-- Event sequence produced by one provider: a successful outcome
(`some` payload) emits next-then-complete; a failed one emits error. -/
def providerEvents : Option Obj → List ProviderEvent
  | some payload => [ProviderEvent.next payload, ProviderEvent.complete]
  | none => [ProviderEvent.error]

/-- The three subscriber callbacks of `getTranslation` as a state
transition on the service: `next` merges the payload, `error` only logs,
`complete` decrements the counter and fires `translationComplete` when it
falls to zero or below. -/
def handleEvent (st : LocState) (language : String) : ProviderEvent → LocState
  | ProviderEvent.next payload => addData st payload language
  | ProviderEvent.error => { st with errorLog := st.errorLog + 1 }
  | ProviderEvent.complete =>
      let st2 := { st with counter := st.counter - 1 }
      if st2.counter ≤ 0 then translationComplete st2 language else st2

/-- Folding a list of delivered observable events over the state. -/
def runEvents (st : LocState) (language : String) (tr : List ProviderEvent) : LocState :=
  tr.foldl (fun s e => handleEvent s language e) st

/-- Interleaving of two event sequences that preserves the relative
order inside each sequence. -/
inductive Mg : List ProviderEvent → List ProviderEvent → List ProviderEvent → Prop
  | nil : Mg [] [] []
  | left {x xs ys zs} : Mg xs ys zs → Mg (x :: xs) ys (x :: zs)
  | right {y xs ys zs} : Mg xs ys zs → Mg xs (y :: ys) (y :: zs)

/-- Interleaving of the event sequences of several concurrent providers:
the single-threaded event loop delivers some merge of the per-provider
sequences. -/
inductive MgAll : List (List ProviderEvent) → List ProviderEvent → Prop
  | nil : MgAll [] []
  | cons {l ls t out} : MgAll ls t → Mg l t out → MgAll (l :: ls) out

/-- Test for the `complete` callback. -/
def isCompleteEv : ProviderEvent → Bool
  | ProviderEvent.complete => true
  | _ => false

/-- Test for the `error` callback. -/
def isErrorEv : ProviderEvent → Bool
  | ProviderEvent.error => true
  | _ => false

/-- Number of `complete` callbacks in a trace. -/
def completes (tr : List ProviderEvent) : Nat := tr.countP isCompleteEv

/-- Number of `error` callbacks in a trace. -/
def errorsCt (tr : List ProviderEvent) : Nat := tr.countP isErrorEv

/-! ### Collation-based operations -/

/-- JS string coercion of a value (objects stringify to
"[object Object]", `undefined` to "undefined"), as applied by
`Intl.Collator.prototype.compare` to non-string arguments. -/
def jsToStr : Option TransValue → String
  | some (TransValue.str s) => s
  | some (TransValue.node _) => "[object Object]"
  | none => "undefined"

/-- JS `v.substr(i, len)`: the substring of length `len` starting at
index `i`. -/
def substrJS (v : String) (i len : Nat) : String :=
  String.mk ((v.data.drop i).take len)

/-- The scanning loop of the matching algorithm: tries the substrings of
length `s.length` starting at `i`, `i+1`, ... for as many iterations as
the fuel allows, stopping at the first collation-equal one. -/
def scanFrom (coll : String → String → Int) (v s : String) : Nat → Nat → Bool
  | _, 0 => false
  | i, Nat.succ k =>
      if coll (substrJS v i s.length) s = 0 then true
      else scanFrom coll v s (i + 1) k

/-- Embedding of the private `match(v, s, collator)` (renamed, `match` is
reserved): false when the search string is longer, whole-string collation
when the lengths agree, otherwise a left-to-right scan over all
substrings of the search string's length. -/
def matchStr (coll : String → String → Int) (v s : String) : Bool :=
  let vLength := v.length
  let sLength := s.length
  if sLength > vLength then false
  else if sLength = vLength then
    if coll v s = 0 then true else false
  else scanFrom coll v s 0 (vLength - (sLength - 1))

/-- An element of the consumer-supplied lists handed to `sort`/`search`:
either a record object with named fields or a primitive string (JS arrays
are heterogeneous, and `Array.prototype.indexOf` with a string argument
can only ever hit a string element). -/
inductive Item where
  | record (fields : List (String × TransValue))
  | prim (s : String)

/-- Property read `item[f]` (on a primitive string a non-numeric
property read yields `undefined`). -/
def itemGetF : Item → String → Option TransValue
  | Item.record fields, f => getField fields f
  | Item.prim _, _ => none

/-- Property write `item[f] = v` (silently ignored on primitives). -/
def itemSetF : Item → String → TransValue → Item
  | Item.record fields, f, v => Item.record (objSet fields f v)
  | Item.prim s, _, _ => Item.prim s

/-- The key passed to `translate` must be a string; any other value makes
`key.split` throw in the source. -/
def keyOfVal : Option TransValue → Option String
  | some (TransValue.str s) => some s
  | _ => none

/-- JS `list.indexOf(s, 0)` where `s` is a string: strict equality can
only hit a primitive string element, never a record. -/
def jsIndexOfStr : List Item → String → Option Nat
  | [], _ => none
  | Item.prim s2 :: t, s =>
      if s2 = s then some 0 else (jsIndexOfStr t s).map (· + 1)
  | Item.record _ :: t, s => (jsIndexOfStr t s).map (· + 1)

/-- Insertion into a list sorted by the comparator (`le a b` = the
comparator ranks `a` not after `b`). -/
def insertBy (le : Item → Item → Bool) (x : Item) : List Item → List Item
  | [] => [x]
  | y :: t => if le x y then x :: y :: t else y :: insertBy le x t

/-- A deterministic comparison sort standing in for
`Array.prototype.sort` (whose order among ties is unspecified). -/
def sortBy (le : Item → Item → Bool) : List Item → List Item
  | [] => []
  | x :: t => insertBy le x (sortBy le t)

/-- Shadow-field writing pass shared by `sort` and `search`: for one key
column, translates each item's key and stores the result under the
`<field>Translated` property; `none` when `translate` throws/diverges on
some item. -/
def writeShadow (st : LocState) (list : List Item) (keyName : String) :
    Option (List Item) :=
  list.mapM (fun item =>
    match keyOfVal (itemGetF item keyName) with
    | none => none
    | some k =>
        (translate st k none st.languageCode).map
          (fun v => itemSetF item (keyName ++ "Translated") v))

/-- Embedding of `compare(key1, key2, ...)`; the `Intl.Collator`
capability check and the collator itself (with its locale extension and
options) are environment parameters.  Returns `none` when the underlying
`translate` call never returns. -/
def compare (st : LocState) (collSupported : Bool) (coll : String → String → Int)
    (key1 key2 : String) : Option Int :=
  if collSupported = false then some 0
  else
    match translate st key1 none st.languageCode, translate st key2 none st.languageCode with
    | some v1, some v2 => some (coll (jsToStr (some v1)) (jsToStr (some v2)))
    | _, _ => none

/-- Embedding of `sort(list, keyName, order, ...)` for non-null `list`
and `keyName` (null arguments short-circuit to the input exactly like an
unsupported collator).  After sorting, the source attempts to remove the
shadow column with `list.indexOf(translated)` followed by `splice`. -/
def sort (st : LocState) (collSupported : Bool) (coll : String → String → Int)
    (list : List Item) (keyName : String) (order : Option String) : Option (List Item) :=
  if collSupported = false then some list
  else
    let translated := keyName ++ "Translated"
    match writeShadow st list keyName with
    | none => none
    | some l1 =>
        let sorted := sortBy
          (fun a b => coll (jsToStr (itemGetF a translated)) (jsToStr (itemGetF b translated)) ≤ 0)
          l1
        let afterRemove :=
          match jsIndexOfStr sorted translated with
          | some i => sorted.eraseIdx i
          | none => sorted
        some (if order = some "desc" then afterRemove.reverse else afterRemove)

/-- Embedding of `search(s, list, keyNames, options)` for non-null `list`
and `keyNames`: writes a shadow column per key column, filters the items
matching the search string on some column, then attempts the same
`indexOf`/`splice` removal of the shadow columns on the filtered list. -/
def search (st : LocState) (collSupported : Bool) (coll : String → String → Int)
    (s : String) (list : List Item) (keyNames : List String) : Option (List Item) :=
  if s = "" then some list
  else if collSupported = false then some list
  else
    let tnames := keyNames.map (fun kn => kn ++ "Translated")
    match keyNames.foldlM (fun acc kn => writeShadow st acc kn) list with
    | none => none
    | some l1 =>
        let found := l1.filter
          (fun v => tnames.any (fun tn => matchStr coll (jsToStr (itemGetF v tn)) s))
        some (tnames.foldl
          (fun acc tn =>
            match jsIndexOfStr acc tn with
            | some i => acc.eraseIdx i
            | none => acc)
          found)

/-- A concrete executable collator (plain code-point comparison), used to
instantiate the abstract `Intl.Collator` parameter in witnesses. -/
def strCmpL : List Char → List Char → Int
  | [], [] => 0
  | [], _ :: _ => -1
  | _ :: _, [] => 1
  | a :: x, b :: y =>
      if a.toNat < b.toNat then -1
      else if b.toNat < a.toNat then 1
      else strCmpL x y

/-- The concrete collator on strings. -/
def collStub (a b : String) : Int := strCmpL a.data b.data

/-- Invariant tying the loading mode to provider registration: the mode
is asynchronous exactly when at least one provider has been added. -/
def modeInv (st : LocState) : Prop :=
  st.loadingMode = LoadingMode.Async ↔ st.providers ≠ []

/-- Concrete substitution arguments binding only the name "name". -/
def sampleArgs : Args := fun k => if k = "name" then some "Sam" else none

/-- Concrete empty substitution arguments. -/
def emptyArgs : Args := fun _ => none

/-- Concrete record with key field "position" = "b". -/
def recPosB : Item := Item.record [("position", TransValue.str "b")]

/-- Concrete record with key field "position" = "a". -/
def recPosA : Item := Item.record [("position", TransValue.str "a")]

/-- Service state after registering a single file-based provider. -/
def stOneProvider : LocState := addProvider initState "./resources/locale-" "json" false

/-- Service state with a direct translation entry loaded for "it". -/
def stItLoaded : LocState := addTranslation initState "it" [("SUBTITLE", TransValue.str "v")]

/-- Service state whose "en" entry is an empty translation object. -/
def stEmptyEn : LocState := addTranslation initState "en" []

/-! ## Lemmas about the template replace -/

theorem takeName_len (l : List Char) : (takeName l).2.length ≤ l.length := by
  induction l with
  | nil => simp [takeName]
  | cons c cs ih =>
      by_cases h : nameChar c = true
      · simp only [takeName, h, if_true]
        exact Nat.le_succ_of_le ih
      · simp [takeName, h]

theorem spSplit_len (t : List Char) : (spSplit t).2.length ≤ t.length := by
  cases t with
  | nil => simp [spSplit]
  | cons c cs => by_cases h : jsSpace c = true <;> simp [spSplit, h] <;> omega

theorem matchTailAux_rest_len (sp1 nmRun rest2 nm mt r : List Char)
    (h : matchTailAux sp1 nmRun rest2 = some (nm, mt, r)) :
    r.length + 2 ≤ rest2.length := by
  unfold matchTailAux at h
  split at h
  · simp only [Option.some.injEq, Prod.mk.injEq] at h
    obtain ⟨-, -, hr⟩ := h
    subst hr
    simp only [List.length_cons]
    omega
  · split at h
    · simp only [Option.some.injEq, Prod.mk.injEq] at h
      obtain ⟨-, -, hr⟩ := h
      subst hr
      simp only [List.length_cons]
      omega
    · exact absurd h (by simp)
  · exact absurd h (by simp)

theorem matchTailT_rest_len (t nm mt r : List Char)
    (h : matchTailT t = some (nm, mt, r)) : r.length + 2 ≤ t.length := by
  have h1 := matchTailAux_rest_len _ _ _ _ _ _ h
  have h2 := takeName_len (spSplit t).2
  have h3 := spSplit_len t
  omega

theorem matchPlaceholder_rest_len (l nm mt r : List Char)
    (h : matchPlaceholder l = some (nm, mt, r)) : r.length < l.length := by
  cases l with
  | nil => exact absurd h (by simp [matchPlaceholder])
  | cons c1 l1 =>
      cases l1 with
      | nil => exact absurd h (by simp [matchPlaceholder])
      | cons c2 t =>
          simp only [matchPlaceholder] at h
          split at h
          · cases hmt : matchTailT t with
            | none => rw [hmt] at h; exact absurd h (by simp)
            | some rr =>
                obtain ⟨nm0, mt0, r0⟩ := rr
                rw [hmt] at h
                simp only [Option.some.injEq, Prod.mk.injEq] at h
                obtain ⟨-, -, hr⟩ := h
                subst hr
                have := matchTailT_rest_len t nm0 mt0 r0 hmt
                simp only [List.length_cons]
                omega
          · exact absurd h (by simp)

theorem matchPlaceholder_none (c : Char) (cs : List Char) (h : c ≠ '\x7b') :
    matchPlaceholder (c :: cs) = none := by
  cases cs with
  | nil => rfl
  | cons c2 t =>
      simp only [matchPlaceholder]
      rw [if_neg]
      intro hc
      exact h hc.1

theorem replTemGo_fuel_eq (args : Args) :
    ∀ (n : Nat) (l : List Char) (m : Nat), l.length ≤ n → l.length ≤ m →
      replTemGo args n l = replTemGo args m l := by
  intro n
  induction n using Nat.strong_induction_on with
  | _ n ih =>
    intro l m hn hm
    cases l with
    | nil => cases n <;> cases m <;> rfl
    | cons c cs =>
        cases n with
        | zero => simp at hn
        | succ n1 =>
            cases m with
            | zero => simp at hm
            | succ m1 =>
                rw [replTemGo, replTemGo]
                cases hmp : matchPlaceholder (c :: cs) with
                | some rr =>
                    obtain ⟨nm, mt, rest⟩ := rr
                    have hr := matchPlaceholder_rest_len _ _ _ _ hmp
                    simp only [hmp]
                    simp only [List.length_cons] at hn hm hr
                    rw [ih n1 (Nat.lt_succ_self n1) rest m1 (by omega) (by omega)]
                | none =>
                    simp only [hmp]
                    simp only [List.length_cons] at hn hm
                    rw [ih n1 (Nat.lt_succ_self n1) cs m1 (by omega) (by omega)]

theorem jsSpace_eq_false_of_nameChar (c : Char) (h : nameChar c = true) :
    jsSpace c = false := by
  unfold nameChar at h
  cases hj : jsSpace c
  · rfl
  · rw [hj] at h; simp at h

theorem takeName_run (n x : List Char) (hn : ∀ c ∈ n, nameChar c = true) :
    takeName (n ++ '\x7d' :: x) = (n, '\x7d' :: x) := by
  induction n with
  | nil =>
      have h : nameChar '\x7d' = false := by decide
      simp [takeName, h]
  | cons c n1 ih =>
      have hc : nameChar c = true := hn c (List.mem_cons_self c n1)
      have ih1 := ih (fun d hd => hn d (List.mem_cons_of_mem c hd))
      simp [takeName, hc, ih1]

theorem matchPlaceholder_at (n s : List Char) (hn : ∀ c ∈ n, nameChar c = true) :
    matchPlaceholder ('\x7b' :: '\x7b' :: (n ++ '\x7d' :: '\x7d' :: s))
      = some (n, '\x7b' :: '\x7b' :: (n ++ ['\x7d', '\x7d']), s) := by
  have hsp : spSplit (n ++ '\x7d' :: '\x7d' :: s) = ([], n ++ '\x7d' :: '\x7d' :: s) := by
    cases n with
    | nil => simp [spSplit, show jsSpace '\x7d' = false from by decide]
    | cons c n1 =>
        have hc := jsSpace_eq_false_of_nameChar c (hn c (List.mem_cons_self c n1))
        simp [spSplit, hc]
  have htk : takeName (n ++ '\x7d' :: ('\x7d' :: s)) = (n, '\x7d' :: '\x7d' :: s) :=
    takeName_run n ('\x7d' :: s) hn
  simp [matchPlaceholder, matchTailT, matchTailAux, hsp, htk]

theorem replTem_at_placeholder (args : Args) (n s : List Char)
    (hn : ∀ c ∈ n, nameChar c = true) :
    replTem args ('\x7b' :: '\x7b' :: (n ++ '\x7d' :: '\x7d' :: s))
      = (match args (String.mk n) with
         | some v => v.data
         | none => '\x7b' :: '\x7b' :: (n ++ ['\x7d', '\x7d'])) ++ replTem args s := by
  unfold replTem
  simp only [List.length_cons]
  rw [replTemGo]
  rw [matchPlaceholder_at n s hn]
  simp only []
  rw [replTemGo_fuel_eq args ((n ++ '\x7d' :: '\x7d' :: s).length + 1) s s.length
        (by simp; omega) (Nat.le_refl _)]

theorem replTem_copy (args : Args) (p l : List Char) (hp : ∀ c ∈ p, c ≠ '\x7b') :
    replTem args (p ++ l) = p ++ replTem args l := by
  induction p with
  | nil => simp
  | cons c p1 ih =>
      have hc : c ≠ '\x7b' := hp c (List.mem_cons_self c p1)
      have ih1 := ih (fun d hd => hp d (List.mem_cons_of_mem c hd))
      show replTem args (c :: (p1 ++ l)) = _
      unfold replTem
      simp only [List.length_cons]
      rw [replTemGo]
      rw [matchPlaceholder_none c (p1 ++ l) hc]
      simp only []
      rw [replTemGo_fuel_eq args ((p1 ++ l).length) (p1 ++ l) ((p1 ++ l).length)
            (Nat.le_refl _) (Nat.le_refl _)]
      rw [show replTemGo args (p1 ++ l).length (p1 ++ l) = replTem args (p1 ++ l) from rfl]
      rw [ih1]
      simp [replTem]

/-! ## Lemmas about object merging -/

theorem getField_objSet (o : Obj) (k : String) (v : TransValue) (q : String) :
    getField (objSet o k v) q = if k = q then some v else getField o q := by
  induction o with
  | nil =>
      by_cases h : k = q <;> simp [objSet, getField, h]
  | cons hd t ih =>
      obtain ⟨k1, v1⟩ := hd
      by_cases h1 : k1 = k
      · subst h1
        by_cases h2 : k1 = q <;> simp [objSet, getField, h2]
      · by_cases h2 : k1 = q
        · subst h2
          have hkq : ¬ k = k1 := fun h => h1 h.symm
          simp [objSet, getField, h1, hkq]
        · simp [objSet, getField, h1, h2, ih]

theorem getField_eq_none_of_not_mem (o : Obj) (q : String)
    (h : q ∉ o.map Prod.fst) : getField o q = none := by
  induction o with
  | nil => rfl
  | cons hd t ih =>
      obtain ⟨k1, v1⟩ := hd
      simp only [List.map_cons, List.mem_cons, not_or] at h
      have : k1 ≠ q := fun hh => h.1 hh.symm
      simp [getField, this, ih h.2]

theorem getLastField_eq_none_of_not_mem (o : Obj) (q : String)
    (h : q ∉ o.map Prod.fst) : getLastField o q = none := by
  induction o with
  | nil => rfl
  | cons hd t ih =>
      obtain ⟨k1, v1⟩ := hd
      simp only [List.map_cons, List.mem_cons, not_or] at h
      have hne : k1 ≠ q := fun hh => h.1 hh.symm
      simp [getLastField, ih h.2, hne]

theorem getLastField_eq_getField (o : Obj) (q : String)
    (h : (o.map Prod.fst).Nodup) : getLastField o q = getField o q := by
  induction o with
  | nil => rfl
  | cons hd t ih =>
      obtain ⟨k1, v1⟩ := hd
      simp only [List.map_cons, List.nodup_cons] at h
      by_cases hq : k1 = q
      · subst hq
        have := getLastField_eq_none_of_not_mem t k1 h.1
        simp [getLastField, getField, this]
      · simp only [getLastField, getField, hq, ih h.2, if_neg hq]
        cases getField t q <;> rfl

theorem getField_setAll (l : Obj) :
    ∀ (acc : Obj) (q : String),
      getField (l.foldl (fun a kv => objSet a kv.1 kv.2) acc) q
        = oOr (getLastField l q) (getField acc q) := by
  induction l with
  | nil => intro acc q; simp [getLastField, oOr]
  | cons hd t ih =>
      intro acc q
      obtain ⟨k, v⟩ := hd
      simp only [List.foldl_cons]
      rw [ih]
      rw [getField_objSet]
      cases hlast : getLastField t q with
      | some r => simp [getLastField, hlast, oOr]
      | none =>
          by_cases hk : k = q <;> simp [getLastField, hlast, oOr, hk]

theorem getField_extend_two (a b : Obj) (q : String) :
    getField (extend [a, b]) q = oOr (getLastField b q) (getLastField a q) := by
  show getField
      (List.foldl (fun acc kv => objSet acc kv.1 kv.2)
        (List.foldl (fun acc kv => objSet acc kv.1 kv.2) [] a) b) q = _
  rw [getField_setAll, getField_setAll]
  cases getLastField b q <;> cases getLastField a q <;> simp [oOr, getField]

/-! ## Lemmas about the composed-key descent -/

theorem descend_spec (rest : List String) :
    ∀ (flds : Obj) (k : String),
      descend flds k rest
        = (List.foldl descendStep flds (k :: rest),
           (k :: rest).getLast (List.cons_ne_nil k rest)) := by
  induction rest with
  | nil => intro flds k; simp [descend, List.foldl]
  | cons k2 r ih =>
      intro flds k
      rw [descend, ih]
      refine Prod.ext rfl ?_
      simp only []
      rw [List.getLast_cons (List.cons_ne_nil k2 r)]

/-! ## Lemmas about the provider event system -/

theorem mg_countP (q : ProviderEvent → Bool) {a b c : List ProviderEvent}
    (h : Mg a b c) : c.countP q = a.countP q + b.countP q := by
  induction h with
  | nil => rfl
  | left _ ih => simp [List.countP_cons, ih]; omega
  | right _ ih => simp [List.countP_cons, ih]; omega

theorem mgAll_countP (q : ProviderEvent → Bool) {ls : List (List ProviderEvent)}
    {out : List ProviderEvent} (h : MgAll ls out) :
    out.countP q = (ls.map (fun l => l.countP q)).sum := by
  induction h with
  | nil => rfl
  | cons _ h2 ih => rw [mg_countP q h2, ih]; simp

theorem completes_of_outcomes (outcomes : List (Option Obj)) :
    ((outcomes.map providerEvents).map (fun l => l.countP isCompleteEv)).sum
      = outcomes.countP (fun o => o.isSome) := by
  induction outcomes with
  | nil => rfl
  | cons o t ih =>
      simp only [List.map_cons, List.sum_cons, List.countP_cons]
      rw [ih]
      cases o <;> simp [providerEvents, isCompleteEv, List.countP_cons, Nat.add_comm]

theorem errors_of_outcomes (outcomes : List (Option Obj)) :
    ((outcomes.map providerEvents).map (fun l => l.countP isErrorEv)).sum
      = outcomes.countP (fun o => o.isNone) := by
  induction outcomes with
  | nil => rfl
  | cons o t ih =>
      simp only [List.map_cons, List.sum_cons, List.countP_cons]
      rw [ih]
      cases o <;> simp [providerEvents, isErrorEv, List.countP_cons, Nat.add_comm]

theorem runEvents_no_complete (L : String) :
    ∀ (tr : List ProviderEvent) (st : LocState), completes tr = 0 →
      (runEvents st L tr).emitted = st.emitted
      ∧ (runEvents st L tr).serviceState = st.serviceState
      ∧ (runEvents st L tr).languageCode = st.languageCode := by
  intro tr
  induction tr with
  | nil => intro st _; exact ⟨rfl, rfl, rfl⟩
  | cons e t ih =>
      intro st h
      cases e with
      | next p =>
          have h2 : completes t = 0 := by
            simpa [completes, List.countP_cons, isCompleteEv] using h
          simpa [runEvents, handleEvent, addData] using ih (addData st p L) h2
      | error =>
          have h2 : completes t = 0 := by
            simpa [completes, List.countP_cons, isCompleteEv] using h
          simpa [runEvents, handleEvent] using
            ih { st with errorLog := st.errorLog + 1 } h2
      | complete =>
          exfalso
          simp [completes, List.countP_cons, isCompleteEv] at h

theorem runEvents_under (L : String) :
    ∀ (tr : List ProviderEvent) (st : LocState), 1 ≤ st.counter →
      (completes tr : Int) < st.counter →
      (runEvents st L tr).emitted = st.emitted
      ∧ (runEvents st L tr).serviceState = st.serviceState
      ∧ (runEvents st L tr).counter = st.counter - completes tr := by
  intro tr
  induction tr with
  | nil => intro st _ _; refine ⟨rfl, rfl, ?_⟩; simp [runEvents, completes]
  | cons e t ih =>
      intro st h1 h2
      cases e with
      | next p =>
          have hc : completes (ProviderEvent.next p :: t) = completes t := by
            simp [completes, List.countP_cons, isCompleteEv]
          rw [hc] at h2
          have := ih (addData st p L) h1 h2
          rw [hc]
          simpa [runEvents, handleEvent, addData] using this
      | error =>
          have hc : completes (ProviderEvent.error :: t) = completes t := by
            simp [completes, List.countP_cons, isCompleteEv]
          rw [hc] at h2
          have := ih { st with errorLog := st.errorLog + 1 } h1 h2
          rw [hc]
          simpa [runEvents, handleEvent] using this
      | complete =>
          have hc : completes (ProviderEvent.complete :: t) = completes t + 1 := by
            simp [completes, List.countP_cons, isCompleteEv]
          rw [hc] at h2
          have hlt : (completes t : Int) < st.counter - 1 := by push_cast at h2 ⊢; omega
          have hge : 1 ≤ st.counter - 1 := by
            have : (0 : Int) ≤ (completes t : Int) := Int.ofNat_nonneg _
            omega
          have hno : ¬ st.counter - 1 ≤ 0 := by omega
          have hstep : runEvents st L (ProviderEvent.complete :: t)
              = runEvents (handleEvent st L ProviderEvent.complete) L t := rfl
          have hhe : handleEvent st L ProviderEvent.complete
              = { st with counter := st.counter - 1 } := by
            simp only [handleEvent]
            rw [if_neg hno]
          rw [hstep, hhe, hc]
          have := ih { st with counter := st.counter - 1 } hge hlt
          refine ⟨this.1, this.2.1, ?_⟩
          rw [this.2.2]
          show st.counter - 1 - (completes t : Int)
              = st.counter - ((completes t + 1 : Nat) : Int)
          push_cast
          omega

theorem runEvents_exact (L : String) :
    ∀ (tr : List ProviderEvent) (st : LocState), 1 ≤ st.counter →
      (completes tr : Int) = st.counter →
      (runEvents st L tr).emitted = st.emitted ++ [L]
      ∧ (runEvents st L tr).serviceState = ServiceState.isReady
      ∧ (runEvents st L tr).languageCode = L := by
  intro tr
  induction tr with
  | nil =>
      intro st h1 h2
      exfalso
      simp [completes] at h2
      omega
  | cons e t ih =>
      intro st h1 h2
      cases e with
      | next p =>
          have hc : completes (ProviderEvent.next p :: t) = completes t := by
            simp [completes, List.countP_cons, isCompleteEv]
          rw [hc] at h2
          have := ih (addData st p L) h1 h2
          simpa [runEvents, handleEvent, addData] using this
      | error =>
          have hc : completes (ProviderEvent.error :: t) = completes t := by
            simp [completes, List.countP_cons, isCompleteEv]
          rw [hc] at h2
          have := ih { st with errorLog := st.errorLog + 1 } h1 h2
          simpa [runEvents, handleEvent] using this
      | complete =>
          have hc : completes (ProviderEvent.complete :: t) = completes t + 1 := by
            simp [completes, List.countP_cons, isCompleteEv]
          rw [hc] at h2
          have hstep : runEvents st L (ProviderEvent.complete :: t)
              = runEvents (handleEvent st L ProviderEvent.complete) L t := rfl
          by_cases hone : st.counter = 1
          · have ht0 : completes t = 0 := by
              rw [hone] at h2; push_cast at h2; omega
            have hyes : ({ st with counter := st.counter - 1 } : LocState).counter ≤ 0 := by
              show st.counter - 1 ≤ 0
              omega
            have hhe : handleEvent st L ProviderEvent.complete
                = translationComplete { st with counter := st.counter - 1 } L := by
              simp only [handleEvent]
              rw [if_pos hyes]
            rw [hstep, hhe]
            have hrest := runEvents_no_complete L t
              (translationComplete { st with counter := st.counter - 1 } L) ht0
            refine ⟨?_, ?_, ?_⟩
            · rw [hrest.1]; exact rfl
            · rw [hrest.2.1]; exact rfl
            · rw [hrest.2.2]; exact rfl
          · have hge : 1 ≤ st.counter - 1 := by
              have : (0 : Int) ≤ (completes t : Int) := Int.ofNat_nonneg _
              omega
            have heq : (completes t : Int) = st.counter - 1 := by push_cast at h2 ⊢; omega
            have hno : ¬ st.counter - 1 ≤ 0 := by omega
            have hhe : handleEvent st L ProviderEvent.complete
                = { st with counter := st.counter - 1 } := by
              simp only [handleEvent]
              rw [if_neg hno]
            rw [hstep, hhe]
            exact ih { st with counter := st.counter - 1 } hge heq

theorem runEvents_errorLog (L : String) :
    ∀ (tr : List ProviderEvent) (st : LocState),
      (runEvents st L tr).errorLog = st.errorLog + errorsCt tr := by
  intro tr
  induction tr with
  | nil => intro st; simp [runEvents, errorsCt]
  | cons e t ih =>
      intro st
      cases e with
      | next p =>
          rw [show runEvents st L (ProviderEvent.next p :: t)
                = runEvents (addData st p L) L t from rfl]
          rw [ih]
          simp [addData, errorsCt, List.countP_cons, isErrorEv]
      | error =>
          rw [show runEvents st L (ProviderEvent.error :: t)
                = runEvents { st with errorLog := st.errorLog + 1 } L t from rfl]
          rw [ih]
          simp [errorsCt, List.countP_cons, isErrorEv]
          omega
      | complete =>
          have hmain : ∀ st2 : LocState,
              (handleEvent st2 L ProviderEvent.complete).errorLog = st2.errorLog := by
            intro st2
            simp only [handleEvent]
            split <;> simp [translationComplete]
          rw [show runEvents st L (ProviderEvent.complete :: t)
                = runEvents (handleEvent st L ProviderEvent.complete) L t from rfl]
          rw [ih, hmain st]
          simp [errorsCt, List.countP_cons, isErrorEv]

/-! ## Lemmas about the matching scan -/

theorem scanFrom_iff (coll : String → String → Int) (v s : String) :
    ∀ (k i : Nat),
      scanFrom coll v s i k = true
        ↔ ∃ j, j < k ∧ coll (substrJS v (i + j) s.length) s = 0 := by
  intro k
  induction k with
  | zero => intro i; simp [scanFrom]
  | succ n ih =>
      intro i
      rw [scanFrom]
      by_cases h : coll (substrJS v i s.length) s = 0
      · simp only [if_pos h, true_iff]
        exact ⟨0, Nat.succ_pos n, by simpa using h⟩
      · rw [if_neg h, ih (i + 1)]
        constructor
        · rintro ⟨j, hj, hc⟩
          refine ⟨j + 1, by omega, ?_⟩
          have : i + (j + 1) = i + 1 + j := by omega
          rw [this]; exact hc
        · rintro ⟨j, hj, hc⟩
          cases j with
          | zero =>
              exfalso; apply h; simpa using hc
          | succ j' =>
              refine ⟨j', by omega, ?_⟩
              have : i + 1 + j' = i + (j' + 1) := by omega
              rw [this]; exact hc

/-! ## Unfolding of translate -/

theorem translate_unfold (st : LocState) (key : String) (args : Option Args)
    (lang : String) :
    translate st key args lang =
      (if isMiss (resolveValue st key lang).1 = true then
        (if truthyStr st.missingKey = true then
          (if isMiss (resolveValue st (st.missingKey.getD "") lang).1 = true then
            (if truthyStr st.missingKey = true then none
             else if truthyStr st.missingValue = true then
               some (TransValue.str (st.missingValue.getD ""))
             else some (TransValue.str (resolveValue st (st.missingKey.getD "") lang).2))
           else hitProcess (resolveValue st (st.missingKey.getD "") lang).1 args)
         else if truthyStr st.missingValue = true then
           some (TransValue.str (st.missingValue.getD ""))
         else some (TransValue.str (resolveValue st key lang).2))
       else hitProcess (resolveValue st key lang).1 args) := rfl

/-- Helper carrying the loading-mode invariant across an operation that
changes neither the mode nor the provider list. -/
theorem modeInv_same {st st2 : LocState} (hm : st2.loadingMode = st.loadingMode)
    (hp : st2.providers = st.providers) (h : modeInv st) : modeInv st2 := by
  unfold modeInv at *
  rw [hm, hp]
  exact h

/-! ## Claim theorems -/

/-- C2: contrary to the claim, the transient shadow field written during
`sort` and `search` is NOT removed before the result is returned: the
source's `list.indexOf(translated)` looks for an array ELEMENT equal to
the string "<field>Translated", which never matches a record, so the
`splice` never runs and every returned record still carries the
"<field>Translated" property (third conjunct: the field is present on the
head record of the sorted result). -/
theorem shadow_field_not_removed :
    sort initState true collStub [recPosB, recPosA] "position" none
      = some [Item.record [("position", TransValue.str "a"),
                           ("positionTranslated", TransValue.str "a")],
              Item.record [("position", TransValue.str "b"),
                           ("positionTranslated", TransValue.str "b")]]
    ∧ search initState true collStub "a" [recPosB, recPosA] ["position"]
      = some [Item.record [("position", TransValue.str "a"),
                           ("positionTranslated", TransValue.str "a")]]
    ∧ getField [("position", TransValue.str "a"),
                ("positionTranslated", TransValue.str "a")] "positionTranslated"
      = some (TransValue.str "a") :=
  ⟨rfl, rfl, rfl⟩

/-- C3 (amended): on a miss, `translate` follows the priority order
fallback key, then fallback literal, then key echo — but the echoed key
is the FINAL lookup key (the last composed-key segment), which equals the
original input key only when the key is not split (no entry for the
language, or composed keys disabled); and when the configured fallback
key itself misses, the source recurses on itself without bound and never
returns (modelled as `none`). -/
theorem translate_miss_policy (st : LocState) (key : String) (args : Option Args)
    (lang : String) (h : isMiss (resolveValue st key lang).1 = true) :
    (truthyStr st.missingKey = true →
       (isMiss (resolveValue st (st.missingKey.getD "") lang).1 = false →
          translate st key args lang
            = hitProcess (resolveValue st (st.missingKey.getD "") lang).1 args)
       ∧ (isMiss (resolveValue st (st.missingKey.getD "") lang).1 = true →
          translate st key args lang = none))
    ∧ (truthyStr st.missingKey = false → truthyStr st.missingValue = true →
        translate st key args lang = some (TransValue.str (st.missingValue.getD "")))
    ∧ (truthyStr st.missingKey = false → truthyStr st.missingValue = false →
        translate st key args lang = some (TransValue.str (resolveValue st key lang).2))
    ∧ (st.translationData lang = none → (resolveValue st key lang).2 = key)
    ∧ (st.composedKey = false → (resolveValue st key lang).2 = key) := by
  refine ⟨?_, ?_, ?_, ?_, ?_⟩
  · intro hmk
    constructor
    · intro hhit
      rw [translate_unfold, if_pos h, if_pos hmk, if_neg]
      rw [hhit]
      simp
    · intro hmiss
      rw [translate_unfold, if_pos h, if_pos hmk, if_pos hmiss, if_pos hmk]
  · intro hmk hmv
    rw [translate_unfold, if_pos h, if_neg, if_pos hmv]
    rw [hmk]
    simp
  · intro hmk hmv
    rw [translate_unfold, if_pos h, if_neg, if_neg]
    · rw [hmv]; simp
    · rw [hmk]; simp
  · intro htab
    unfold resolveValue
    rw [htab]
  · intro hck
    unfold resolveValue
    cases st.translationData lang with
    | none => rfl
    | some translation => rw [hck]; simp

/-- Concrete counterexample to C3 as stated: with an (empty) entry loaded
for "en", the composed key "a.b" misses and `translate` returns the last
segment "b", not the original key "a.b" verbatim. -/
theorem translate_miss_returns_last_segment :
    translate stEmptyEn "a.b" none "en" = some (TransValue.str "b")
    ∧ TransValue.str "b" ≠ TransValue.str "a.b" := by
  refine ⟨rfl, ?_⟩
  intro hE
  injection hE with h2
  exact absurd h2 (by decide)

/-- Witness: the key-echo branch of the amended C3 theorem evaluated at a
concrete miss. -/
theorem translate_miss_policy_witness :
    isMiss (resolveValue stEmptyEn "a.b" "en").1 = true
    ∧ translate stEmptyEn "a.b" none "en"
        = some (TransValue.str (resolveValue stEmptyEn "a.b" "en").2) :=
  ⟨rfl, (translate_miss_policy stEmptyEn "a.b" none "en" rfl).2.2.1 rfl rfl⟩

/-- C4 (amended): an asynchronous reload for language X resets the WHOLE
translation table (every language's entry is discarded, not only X's),
after which the X entry is rebuilt exclusively through `addData` merges;
`addData` itself touches no entry other than its own language, and the
event handlers mutate the table only through `addData`. -/
theorem reload_clears_whole_table :
    (∀ (st : LocState) (L lang : String),
        (getTranslation st L).translationData lang = none)
    ∧ (∀ (st : LocState) (L lang : String) (data : Obj), lang ≠ L →
        (addData st data L).translationData lang = st.translationData lang)
    ∧ (∀ (st : LocState) (L : String) (data : Obj),
        (addData st data L).translationData L
          = some (match st.translationData L with
                  | some old => extend [old, data]
                  | none => data))
    ∧ (∀ (st : LocState) (L : String) (e : ProviderEvent),
        (handleEvent st L e).translationData = st.translationData
        ∨ ∃ p, e = ProviderEvent.next p
            ∧ (handleEvent st L e).translationData = (addData st p L).translationData) := by
  refine ⟨?_, ?_, ?_, ?_⟩
  · intro st L lang; rfl
  · intro st L lang data hne
    simp [addData, hne]
  · intro st L data
    simp [addData]
  · intro st L e
    cases e with
    | next p => exact Or.inr ⟨p, rfl, rfl⟩
    | error => exact Or.inl rfl
    | complete =>
        left
        simp only [handleEvent]
        split <;> rfl

/-- Concrete counterexample to C4 as stated: a previously loaded entry
for "it" is discarded by a reload for "en" (the claim says entries of
other languages are left unchanged). -/
theorem reload_discards_other_language :
    stItLoaded.translationData "it" = some [("SUBTITLE", TransValue.str "v")]
    ∧ (getTranslation stItLoaded "en").translationData "it" = none :=
  ⟨rfl, rfl⟩

/-- Witness: the locality of `addData` evaluated at concrete languages. -/
theorem reload_clears_whole_table_witness :
    ("it" : String) ≠ "en"
    ∧ (addData initState [("x", TransValue.str "1")] "en").translationData "it"
        = initState.translationData "it" :=
  ⟨by decide,
   reload_clears_whole_table.2.1 initState "en" "it" [("x", TransValue.str "1")] (by decide)⟩

/-- C5: composed-key resolution descends nested mappings segment by
segment — the concrete round trip for payload a -> b -> "hello" returns
"hello"; in general the descent folds `descendStep` (which only replaces
the held object when the segment's value is a mapping) over all segments
and the final lookup key is the last segment; and a segment resolving to
a non-mapping mid-descent raises no error: the lookup proceeds and the
resulting miss is handled by the missing-key policy (key echo here). -/
theorem composed_key_descent :
    translate (addTranslation initState "en"
        [("a", TransValue.node [("b", TransValue.str "hello")])]) "a.b" none "en"
      = some (TransValue.str "hello")
    ∧ (∀ (flds : Obj) (k : String) (rest : List String),
        descend flds k rest
          = (List.foldl descendStep flds (k :: rest),
             (k :: rest).getLast (List.cons_ne_nil k rest)))
    ∧ translate (addTranslation initState "en" [("a", TransValue.str "x")]) "a.b" none "en"
      = some (TransValue.str "b") := by
  refine ⟨rfl, ?_, rfl⟩
  intro flds k rest
  exact descend_spec rest flds k

/-- C7: repeated `addData` calls for one language merge payloads with a
shallow, last-writer-wins top-level field merge — stated in general for
duplicate-free payloads (JS objects cannot carry duplicate keys) and
evaluated on the two concrete examples of the claim. -/
theorem addData_merge_semantics :
    (∀ (st : LocState) (L : String) (p1 p2 : Obj) (k : String),
        st.translationData L = none →
        (p1.map Prod.fst).Nodup → (p2.map Prod.fst).Nodup →
        (addData (addData st p1 L) p2 L).translationData L = some (extend [p1, p2])
        ∧ getField (extend [p1, p2]) k = oOr (getField p2 k) (getField p1 k))
    ∧ (addData (addData initState [("x", TransValue.str "1")] "en")
        [("y", TransValue.str "2")] "en").translationData "en"
        = some [("x", TransValue.str "1"), ("y", TransValue.str "2")]
    ∧ (addData (addData initState [("x", TransValue.str "1")] "en")
        [("x", TransValue.str "2")] "en").translationData "en"
        = some [("x", TransValue.str "2")] := by
  refine ⟨?_, rfl, rfl⟩
  intro st L p1 p2 k h hn1 hn2
  constructor
  · simp [addData, h]
  · rw [getField_extend_two, getLastField_eq_getField p2 k hn2,
        getLastField_eq_getField p1 k hn1]

/-- Witness: the general merge lemma of C7 evaluated at the overwrite
example. -/
theorem addData_merge_semantics_witness :
    getField (extend [[("x", TransValue.str "1")], [("x", TransValue.str "2")]]) "x"
      = oOr (getField [("x", TransValue.str "2")] "x")
            (getField [("x", TransValue.str "1")] "x") :=
  (addData_merge_semantics.1 initState "en"
      [("x", TransValue.str "1")] [("x", TransValue.str "2")] "x"
      rfl (by simp) (by simp)).2

/-- C9: when the collation capability reports the current language as
unsupported, `compare` returns the neutral value 0 and `sort` and
`search` return the input list unchanged; all three are total in that
case (they return a value rather than throwing). -/
theorem collator_unsupported_neutral :
    ∀ (st : LocState) (coll : String → String → Int) (k1 k2 : String)
      (list : List Item) (keyName : String) (order : Option String)
      (s : String) (keyNames : List String),
      compare st false coll k1 k2 = some 0
      ∧ sort st false coll list keyName order = some list
      ∧ search st false coll s list keyNames = some list := by
  intro st coll k1 k2 list keyName order s keyNames
  refine ⟨rfl, rfl, ?_⟩
  unfold search
  by_cases hs : s = ""
  · rw [if_pos hs]
  · rw [if_neg hs]; exact rfl

/-- C6: the substring predicate of `search` returns false immediately
when the needle is longer than the value; compares the whole strings when
the lengths agree; and otherwise succeeds exactly when some contiguous
substring of the value with the needle's length collates equal to the
needle, scanning those substrings left to right (first in the range the
source's loop iterates, then restated over the claim's range
`i + |needle| <= |value|` for a non-empty needle). -/
theorem match_characterization (coll : String → String → Int) (v s : String) :
    (s.length > v.length → matchStr coll v s = false)
    ∧ (s.length = v.length → (matchStr coll v s = true ↔ coll v s = 0))
    ∧ (s.length < v.length →
        (matchStr coll v s = true
          ↔ ∃ i, i < v.length - (s.length - 1)
              ∧ coll (substrJS v i s.length) s = 0))
    ∧ (0 < s.length → s.length < v.length →
        (matchStr coll v s = true
          ↔ ∃ i, i + s.length ≤ v.length ∧ coll (substrJS v i s.length) s = 0)) := by
  refine ⟨?_, ?_, ?_, ?_⟩
  · intro h
    simp only [matchStr]
    rw [if_pos h]
  · intro h
    simp only [matchStr]
    rw [if_neg (by omega), if_pos h]
    by_cases hc : coll v s = 0 <;> simp [hc]
  · intro h
    simp only [matchStr]
    rw [if_neg (by omega), if_neg (by omega)]
    rw [scanFrom_iff coll v s (v.length - (s.length - 1)) 0]
    constructor
    · rintro ⟨j, hj, hc⟩
      exact ⟨j, hj, by simpa using hc⟩
    · rintro ⟨j, hj, hc⟩
      exact ⟨j, hj, by simpa using hc⟩
  · intro h0 h
    simp only [matchStr]
    rw [if_neg (by omega), if_neg (by omega)]
    rw [scanFrom_iff coll v s (v.length - (s.length - 1)) 0]
    constructor
    · rintro ⟨j, hj, hc⟩
      exact ⟨j, by omega, by simpa using hc⟩
    · rintro ⟨j, hj, hc⟩
      exact ⟨j, by omega, by simpa using hc⟩

/-- Witness: the needle-longer-than-value branch and the substring branch
of C6 evaluated on concrete strings with the concrete collator. -/
theorem match_characterization_witness :
    ("Accountant" : String).length > ("Acc" : String).length
    ∧ matchStr collStub "Acc" "Accountant" = false
    ∧ (0 : Nat) < ("Acc" : String).length
    ∧ ("Acc" : String).length < ("Accountant" : String).length
    ∧ (matchStr collStub "Accountant" "Acc" = true
        ↔ ∃ i, i + ("Acc" : String).length ≤ ("Accountant" : String).length
            ∧ collStub (substrJS "Accountant" i ("Acc" : String).length) "Acc" = 0) :=
  ⟨by decide,
   (match_characterization collStub "Acc" "Accountant").1 (by decide),
   by decide,
   by decide,
   (match_characterization collStub "Accountant" "Acc").2.2.2 (by decide) (by decide)⟩

/-- C8: on a hit of a non-empty string value with non-null args,
`translate` applies the placeholder replace to the value; and the replace
substitutes a well-formed placeholder whose name is bound in the args
with the bound value and keeps the placeholder text verbatim otherwise,
scanning left to right (text before the placeholder is copied unchanged,
scanning resumes after the placeholder). -/
theorem template_substitution :
    (∀ (st : LocState) (key lang v fk : String) (a : Args),
        resolveValue st key lang = (some (TransValue.str v), fk) → v ≠ "" →
        translate st key (some a) lang = some (TransValue.str (applyTemplate v a)))
    ∧ (∀ (a : Args) (p n s : List Char),
        (∀ c ∈ p, c ≠ '\x7b') → (∀ c ∈ n, nameChar c = true) →
        applyTemplate (String.mk (p ++ '\x7b' :: '\x7b' :: (n ++ '\x7d' :: '\x7d' :: s))) a
          = String.mk (p ++ ((match a (String.mk n) with
              | some w => w.data
              | none => '\x7b' :: '\x7b' :: (n ++ ['\x7d', '\x7d'])) ++ replTem a s))) := by
  constructor
  · intro st key lang v fk a h hv
    rw [translate_unfold, h]
    have hm : isMiss ((some (TransValue.str v), fk) : Option TransValue × String).1 = false := by
      simp [isMiss, hv]
    rw [hm]
    simp [hitProcess]
  · intro a p n s hp hn
    unfold applyTemplate
    rw [show (String.mk (p ++ '\x7b' :: '\x7b' :: (n ++ '\x7d' :: '\x7d' :: s))).data
          = p ++ '\x7b' :: '\x7b' :: (n ++ '\x7d' :: '\x7d' :: s) from rfl]
    rw [replTem_copy a p ('\x7b' :: '\x7b' :: (n ++ '\x7d' :: '\x7d' :: s)) hp]
    rw [replTem_at_placeholder a n s hn]

/-- Witness: the general substitution law of C8 evaluated on the claim's
two concrete examples. -/
theorem template_substitution_witness :
    applyTemplate "Hi \x7b\x7bname\x7d\x7d" sampleArgs = "Hi Sam"
    ∧ applyTemplate "Hi \x7b\x7bname\x7d\x7d" emptyArgs = "Hi \x7b\x7bname\x7d\x7d" := by
  have h1 := template_substitution.2 sampleArgs "Hi ".data "name".data []
    (by decide) (by decide)
  have h2 := template_substitution.2 emptyArgs "Hi ".data "name".data []
    (by decide) (by decide)
  exact ⟨h1, h2⟩

/-- C1 (amended): for a language switch dispatched with N registered
providers, over every interleaving of the provider observable events: if
every provider succeeds, the service reaches Ready and emits the
translation-changed notification with that language tag exactly once,
only after all N completion callbacks have run (every trace prefix with
fewer completions has no emission and is still Loading); but a provider
failure delivers only the error callback, which logs and contributes no
translation data yet does NOT decrement the pending counter — so a
request with any failed provider keeps a positive counter, stays in
Loading and never emits. -/
theorem async_load_readiness (st0 : LocState) (L : String)
    (outcomes : List (Option Obj)) (tr : List ProviderEvent)
    (hlen : st0.providers.length = outcomes.length)
    (hne : outcomes ≠ [])
    (hmg : MgAll (outcomes.map providerEvents) tr) :
    ((∀ o ∈ outcomes, o.isSome = true) →
        (runEvents (getTranslation st0 L) L tr).emitted = st0.emitted ++ [L]
        ∧ (runEvents (getTranslation st0 L) L tr).serviceState = ServiceState.isReady
        ∧ (runEvents (getTranslation st0 L) L tr).languageCode = L
        ∧ ∀ p, p <+: tr → completes p < outcomes.length →
            (runEvents (getTranslation st0 L) L p).emitted = st0.emitted
            ∧ (runEvents (getTranslation st0 L) L p).serviceState
                = ServiceState.isLoading)
    ∧ ((∃ o ∈ outcomes, o = none) →
        (runEvents (getTranslation st0 L) L tr).emitted = st0.emitted
        ∧ (runEvents (getTranslation st0 L) L tr).serviceState = ServiceState.isLoading
        ∧ 1 ≤ (runEvents (getTranslation st0 L) L tr).counter)
    ∧ (runEvents (getTranslation st0 L) L tr).errorLog = st0.errorLog + errorsCt tr
    ∧ (∀ s2 : LocState,
        (handleEvent s2 L ProviderEvent.error).translationData = s2.translationData) := by
  have hcomp : completes tr = outcomes.countP (fun o => o.isSome) := by
    rw [completes, mgAll_countP isCompleteEv hmg, completes_of_outcomes]
  have hcnt : (getTranslation st0 L).counter = (outcomes.length : Int) := by
    simp [getTranslation, hlen]
  have hN1 : 1 ≤ outcomes.length := List.length_pos.mpr hne
  have h1 : 1 ≤ (getTranslation st0 L).counter := by
    rw [hcnt]; exact_mod_cast hN1
  refine ⟨?_, ?_, ?_, ?_⟩
  · intro hall
    have hcompN : completes tr = outcomes.length := by
      rw [hcomp, List.countP_eq_length.mpr]
      intro o ho
      exact hall o ho
    have h2 : (completes tr : Int) = (getTranslation st0 L).counter := by
      rw [hcnt, hcompN]
    have hmain := runEvents_exact L tr (getTranslation st0 L) h1 h2
    refine ⟨hmain.1, hmain.2.1, hmain.2.2, ?_⟩
    intro p hp hplt
    have h3 : (completes p : Int) < (getTranslation st0 L).counter := by
      rw [hcnt]; exact_mod_cast hplt
    have hu := runEvents_under L p (getTranslation st0 L) h1 h3
    exact ⟨hu.1, hu.2.1⟩
  · rintro ⟨o, ho, hnone⟩
    have hlt : completes tr < outcomes.length := by
      rw [hcomp]
      refine Nat.lt_of_le_of_ne (List.countP_le_length _) ?_
      intro hEq
      have := (List.countP_eq_length.mp hEq) o ho
      rw [hnone] at this
      exact absurd this (by simp)
    have h3 : (completes tr : Int) < (getTranslation st0 L).counter := by
      rw [hcnt]; exact_mod_cast hlt
    have hu := runEvents_under L tr (getTranslation st0 L) h1 h3
    refine ⟨hu.1, hu.2.1, ?_⟩
    rw [hu.2.2, hcnt]
    have : (completes tr : Int) < (outcomes.length : Int) := by exact_mod_cast hlt
    omega
  · exact runEvents_errorLog L tr (getTranslation st0 L)
  · intro s2; rfl

/-- Concrete counterexample to C1 as stated: with one registered provider
whose fetch fails, the service stays in the Loading state (it never
reaches Ready), emits no notification, and the pending counter is still
1 — the error callback did not decrement it. -/
theorem async_load_failure_not_ready :
    (runEvents (getTranslation stOneProvider "en") "en" [ProviderEvent.error]).serviceState
        = ServiceState.isLoading
    ∧ (runEvents (getTranslation stOneProvider "en") "en" [ProviderEvent.error]).serviceState
        ≠ ServiceState.isReady
    ∧ (runEvents (getTranslation stOneProvider "en") "en" [ProviderEvent.error]).emitted = []
    ∧ (runEvents (getTranslation stOneProvider "en") "en" [ProviderEvent.error]).counter = 1
    ∧ (runEvents (getTranslation stOneProvider "en") "en" [ProviderEvent.error]).errorLog = 1 :=
  ⟨rfl, by decide, rfl, rfl, rfl⟩

/-- Witness: the all-success branch of the amended C1 theorem on a
single-provider load whose fetch succeeds. -/
theorem async_load_readiness_witness :
    (runEvents (getTranslation stOneProvider "en") "en"
        [ProviderEvent.next [("TITLE", TransValue.str "v")], ProviderEvent.complete]).emitted
      = stOneProvider.emitted ++ ["en"]
    ∧ (runEvents (getTranslation stOneProvider "en") "en"
        [ProviderEvent.next [("TITLE", TransValue.str "v")], ProviderEvent.complete]).serviceState
      = ServiceState.isReady := by
  have h := (async_load_readiness stOneProvider "en" [some [("TITLE", TransValue.str "v")]]
      [ProviderEvent.next [("TITLE", TransValue.str "v")], ProviderEvent.complete]
      rfl (List.cons_ne_nil _ _)
      (MgAll.cons MgAll.nil (Mg.left (Mg.left Mg.nil)))).1
    (by intro o ho; rw [List.mem_singleton.mp ho]; rfl)
  exact ⟨h.1, h.2.1⟩

/-- C10: the loading mode is Async exactly when at least one provider is
registered — established by the constructor state and preserved by every
public operation; `addProvider` only appends to the provider list
(switching to Async with the first provider) and no other operation
touches the provider list. -/
theorem loading_mode_invariant :
    modeInv initState
    ∧ (∀ (st : LocState) (p f : String) (w : Bool), modeInv st →
        modeInv (addProvider st p f w)
        ∧ (addProvider st p f w).providers = st.providers ++ [⟨p, f, w⟩])
    ∧ (∀ (st : LocState) (p f : String) (w : Bool),
        translationProvider st p f w = addProvider st p f w)
    ∧ (∀ (st : LocState) (L : String) (d : Obj), modeInv st →
        modeInv (addTranslation st L d) ∧ (addTranslation st L d).providers = st.providers)
    ∧ (∀ (st : LocState) (L : String), modeInv st →
        modeInv (updateTranslation st L)
        ∧ (updateTranslation st L).providers = st.providers)
    ∧ (∀ (st : LocState) (val : String), modeInv st →
        modeInv (setMissingValue st val)
        ∧ (setMissingValue st val).providers = st.providers)
    ∧ (∀ (st : LocState) (k : String), modeInv st →
        modeInv (setMissingKey st k) ∧ (setMissingKey st k).providers = st.providers)
    ∧ (∀ (st : LocState) (b : Bool) (sep : String), modeInv st →
        modeInv (setComposedKey st b sep)
        ∧ (setComposedKey st b sep).providers = st.providers)
    ∧ (∀ st : LocState, modeInv st →
        modeInv (useLocaleAsLanguage st)
        ∧ (useLocaleAsLanguage st).providers = st.providers)
    ∧ (∀ (st : LocState) (L : String), modeInv st →
        modeInv (getTranslation st L) ∧ (getTranslation st L).providers = st.providers)
    ∧ (∀ (st : LocState) (L : String), modeInv st →
        modeInv (translationComplete st L)
        ∧ (translationComplete st L).providers = st.providers)
    ∧ (∀ (st : LocState) (L : String) (e : ProviderEvent), modeInv st →
        modeInv (handleEvent st L e) ∧ (handleEvent st L e).providers = st.providers) := by
  refine ⟨?_, ?_, ?_, ?_, ?_, ?_, ?_, ?_, ?_, ?_, ?_, ?_⟩
  · unfold modeInv initState
    simp
  · intro st p f w h
    refine ⟨?_, rfl⟩
    unfold modeInv addProvider
    cases hsp : st.providers with
    | nil => simp
    | cons a t =>
        have hmode : st.loadingMode = LoadingMode.Async := h.mpr (by simp [hsp])
        have hlen : ¬ ((a :: t) ++ [(⟨p, f, w⟩ : Provider)]).length = 1 := by
          simp
        simp [hlen, hmode]
  · intro st p f w; rfl
  · intro st L d h
    exact ⟨modeInv_same rfl rfl h, rfl⟩
  · intro st L h
    constructor
    · unfold updateTranslation
      split
      · split
        · exact modeInv_same rfl rfl h
        · exact modeInv_same rfl rfl h
      · exact h
    · unfold updateTranslation
      split
      · split <;> rfl
      · rfl
  · intro st val h
    exact ⟨modeInv_same rfl rfl h, rfl⟩
  · intro st k h
    exact ⟨modeInv_same rfl rfl h, rfl⟩
  · intro st b sep h
    exact ⟨modeInv_same rfl rfl h, rfl⟩
  · intro st h
    exact ⟨modeInv_same rfl rfl h, rfl⟩
  · intro st L h
    exact ⟨modeInv_same rfl rfl h, rfl⟩
  · intro st L h
    exact ⟨modeInv_same rfl rfl h, rfl⟩
  · intro st L e h
    cases e with
    | next p => exact ⟨modeInv_same rfl rfl h, rfl⟩
    | error => exact ⟨modeInv_same rfl rfl h, rfl⟩
    | complete =>
        constructor
        · simp only [handleEvent]
          split
          · exact modeInv_same rfl rfl h
          · exact modeInv_same rfl rfl h
        · simp only [handleEvent]
          split <;> rfl

/-- Witness: the invariant holds after the first provider registration
performed on the constructor state. -/
theorem loading_mode_invariant_witness :
    modeInv (addProvider initState "./resources/locale-" "json" false) :=
  (loading_mode_invariant.2.1 initState "./resources/locale-" "json" false
    loading_mode_invariant.1).1

end Angular2Localization
